import Mathlib

/-!
Verification of the allow-list mini-language scanner `validate_ksm_parameter`
from `src/aks-preview/azext_aks_preview/_validators.py`.

The Python function scans its input left to right.  For each index `i` it
computes `next` (the ord of the character at `i+1`, or the sentinel `-1` at
end of input) and `previous` (the ord of the character at `i-1` when
`i ≥ 1`; at `i = 0` it is the *current one-character string* `v` itself).
Because Python's `==` between an `int` and a `str` is always `False`, the
comparisons involving `previous` behave as follows:

* `previous == ord(",")` (in the `=` branch) is `False` at `i = 0`
  (str vs int) and is ordinary character equality for `i ≥ 1`;
* `previous != ord("=")` / `previous != ord("[")` / `previous != ord("]")`
  are `True` at `i = 0` and ordinary character inequality for `i ≥ 1`;
* `previous == v` (in the `,` branch) is `True` at `i = 0` (the string is
  compared with itself) and `False` for every `i ≥ 1` (int vs str) — so the
  "doubled comma" guard only ever fires for a comma at index 0.

We therefore model `previous` as an `Option Char`: `none` encodes `i = 0`,
and the branch tests are translated according to the table above.
Appending to `labelValueMap[name]` when `name` is not a key of the dict
raises a Python `KeyError`; the embedding models the two reachable
exception kinds with `PError`.
-/

/-- The two exception kinds that can escape `validate_ksm_parameter`:
`InvalidArgumentValueError` (the formatting error raised explicitly) and
Python's `KeyError` (raised by `labelValueMap[name].append(...)` when
`name` is not a key of the dict). -/
inductive PError where
  | invalidFormat : PError
  | keyError : PError
deriving DecidableEq, Repr

/-- An insertion-ordered dictionary, as Python's `dict`: an association
list whose keys are pairwise distinct. -/
abbrev LabelMap := List (String × List String)

/-- Python dict assignment `m[k] = v`: replace the value in place if the
key is present (keeping its original position), otherwise append the new
binding at the end. -/
def insertReplace (m : LabelMap) (k : String) (v : List String) : LabelMap :=
  match m with
  | [] => [(k, v)]
  | (k', v') :: rest =>
      if k' = k then (k, v) :: rest else (k', v') :: insertReplace rest k v

/-- Python `m[k].append(x)`: `none` models the `KeyError` raised when `k`
is not a key of `m`. -/
def appendTo (m : LabelMap) (k : String) (x : String) : Option LabelMap :=
  match m with
  | [] => none
  | (k', vs) :: rest =>
      if k' = k then some ((k', vs ++ [x]) :: rest)
      else (appendTo rest k x).map (fun r => (k', vs) :: r)

/-- The scan state of `validate_ksm_parameter`: the accumulator
`labelValueMap`, the variable `name` (last key seen) and `firstWordPos`
(index just past the last structural delimiter). -/
structure ScanState where
  map : LabelMap
  name : String
  firstWordPos : Nat
deriving Repr

/-- Python slice `s[a:b]` (with `a ≤ b` in all uses made by the scan). -/
def sliceStr (s : List Char) (a b : Nat) : String := ⟨(s.drop a).take (b - a)⟩

/-- One iteration of the `for i, v in enumerate(ksmparam)` loop.
`prevO = none` encodes `i = 0` (see the module comment for how Python's
mixed-type `==` makes the branch guards come out); `nextO = none` encodes
the `EOF` sentinel. -/
def ksmStep (s : List Char) (i : Nat) (v : Char) (prevO nextO : Option Char)
    (st : ScanState) : Except PError ScanState :=
  if v = '=' then
    if prevO = some ',' ∨ nextO ≠ some '[' then .error .invalidFormat
    else
      let name := sliceStr s st.firstWordPos i
      .ok ⟨insertReplace st.map name [], name, i + 1⟩
  else if v = '[' then
    if prevO ≠ some '=' then .error .invalidFormat
    else .ok ⟨st.map, st.name, i + 1⟩
  else if v = ']' then
    if nextO ≠ none ∧ nextO ≠ some ',' then .error .invalidFormat
    else if prevO ≠ some '[' then
      match appendTo st.map st.name (sliceStr s st.firstWordPos i) with
      | none => .error .keyError
      | some m => .ok ⟨m, st.name, i + 1⟩
    else .ok ⟨st.map, st.name, i + 1⟩
  else if v = ',' then
    if prevO = none ∨ nextO = none ∨ nextO = some ']' then .error .invalidFormat
    else if prevO ≠ some ']' then
      match appendTo st.map st.name (sliceStr s st.firstWordPos i) with
      | none => .error .keyError
      | some m => .ok ⟨m, st.name, i + 1⟩
    else .ok ⟨st.map, st.name, i + 1⟩
  else .ok st

/-- The scan loop.  `s` is the whole input (needed for slicing); the first
list argument is the remaining suffix `s.drop i`; `prevO` is the character
at `i - 1` (or `none` at `i = 0`). -/
def ksmScanAux (s : List Char) :
    List Char → Nat → Option Char → ScanState → Except PError ScanState
  | [], _, _, st => .ok st
  | v :: rest, i, prevO, st =>
    match ksmStep s i v prevO rest.head? st with
    | .error e => .error e
    | .ok st' => ksmScanAux s rest (i + 1) (some v) st'

/-- Run the scan loop on a whole input, from the initial state
`labelValueMap = {}`, `name = ""`, `firstWordPos = 0`. -/
def ksmScan (l : List Char) : Except PError ScanState :=
  ksmScanAux l l 0 none ⟨[], "", 0⟩

/-- ASCII `[A-Za-z0-9_]`. -/
def isWordChar (c : Char) : Bool := c.isAlpha || c.isDigit || c = '_'

/-- Full (anchored) match of `[a-zA-Z_][A-Za-z0-9_]+`: at least two
characters, a leading ASCII letter or underscore, then one or more word
characters.  This is the spec's reading of the key pattern. -/
def goodKeyStrict (s : String) : Bool :=
  match s.data with
  | [] => false
  | c :: rest => (c.isAlpha || c = '_') && !rest.isEmpty && rest.all isWordChar

/-- Python `re.match(r'^[a-zA-Z_][A-Za-z0-9_]+$', s)` truth value: without
`re.MULTILINE`, `$` matches at the end of the string *or just before a
newline at the end of the string*, so the pattern also accepts a full
match followed by one trailing `'\n'`. -/
def pythonKeyMatch (s : String) : Bool :=
  goodKeyStrict s ||
    (match s.data.getLast? with
     | some c => c = '\n' && goodKeyStrict ⟨s.data.dropLast⟩
     | none => false)

/-- The mapping computed by `validate_ksm_parameter` on a char list: run
the scan, then run the final loop checking every collected key against the
key regex.  The value is the final `labelValueMap` (the function's internal
accumulator). -/
def parseL (l : List Char) : Except PError LabelMap :=
  match ksmScan l with
  | .error e => .error e
  | .ok st =>
      if st.map.all (fun kv => pythonKeyMatch kv.1) then .ok st.map
      else .error .invalidFormat

/-- The mapping computed by `validate_ksm_parameter input`. -/
def parse (s : String) : Except PError LabelMap := parseL s.data

/-- The Python function itself: it performs the scan and the key check but
returns `None` on success — the mapping is not part of its result. -/
def validate_ksm_parameter (s : String) : Except PError Unit :=
  match parse s with
  | .error _e => .error _e
  | .ok _ => .ok ()

/-- Canonical comma-join of a list of character lists. -/
def joinComma : List (List Char) → List Char
  | [] => []
  | [x] => x
  | x :: y :: xs => x ++ ',' :: joinComma (y :: xs)

/-- Canonical form of one entry: `key=[v1,v2,...]`. -/
def entryChars (kv : String × List String) : List Char :=
  kv.1.data ++ '=' :: '[' :: (joinComma (kv.2.map String.data) ++ [']'])

/-- Canonical serialization of a mapping: comma-join of its entries. -/
def serializeL (m : LabelMap) : List Char := joinComma (m.map entryChars)

/-- Canonical serialization, as a string. -/
def serialize (m : LabelMap) : String := ⟨serializeL m⟩

/-- `true` when every `']'` or `','` of the input is preceded (strictly
earlier) by some `'='`. -/
def eqBeforeDelims : List Char → Bool
  | [] => true
  | c :: rest =>
      if c = '=' then true
      else if c = ']' ∨ c = ',' then false
      else eqBeforeDelims rest

/-- The four structural delimiter characters of the mini-language. -/
def isDelim (c : Char) : Bool := c = '=' || c = '[' || c = ']' || c = ','

deriving instance DecidableEq for Except

/-! ### Lemmas about the dictionary operations -/

lemma mem_insertReplace {m : LabelMap} {k : String} {v : List String}
    {kv : String × List String} (h : kv ∈ insertReplace m k v) :
    kv = (k, v) ∨ kv ∈ m := by
  induction m with
  | nil => simpa [insertReplace] using h
  | cons hd tl ih =>
    obtain ⟨k', v'⟩ := hd
    by_cases hk : k' = k
    · simp [insertReplace, hk] at h
      rcases h with h | h
      · exact Or.inl (by simp [h])
      · exact Or.inr (by simp [h])
    · simp [insertReplace, hk] at h
      rcases h with h | h
      · exact Or.inr (by simp [h])
      · rcases ih h with h' | h'
        · exact Or.inl h'
        · exact Or.inr (by simp [h'])

lemma keys_insertReplace (m : LabelMap) (k : String) (v : List String) :
    (insertReplace m k v).map Prod.fst =
      if k ∈ m.map Prod.fst then m.map Prod.fst else m.map Prod.fst ++ [k] := by
  induction m with
  | nil => simp [insertReplace]
  | cons hd tl ih =>
    obtain ⟨k', v'⟩ := hd
    by_cases hk : k' = k
    · subst hk; simp [insertReplace]
    · have hk' : ¬ k = k' := fun h => hk h.symm
      by_cases hm : k ∈ tl.map Prod.fst
      · simp [insertReplace, hk, ih, hm, hk']
      · simp [insertReplace, hk, ih, hm, hk']

lemma mem_keys_insertReplace (m : LabelMap) (k : String) (v : List String) :
    k ∈ (insertReplace m k v).map Prod.fst := by
  rw [keys_insertReplace]
  split
  · assumption
  · simp

lemma nodup_keys_insertReplace {m : LabelMap} {k : String} {v : List String}
    (h : (m.map Prod.fst).Nodup) :
    ((insertReplace m k v).map Prod.fst).Nodup := by
  rw [keys_insertReplace]
  split
  · exact h
  · rename_i hk
    exact List.Nodup.append h (List.nodup_singleton k)
      (fun a ha hb => by simp at hb; subst hb; exact hk ha)

lemma insertReplace_not_mem {m : LabelMap} {k : String} {v : List String}
    (h : k ∉ m.map Prod.fst) : insertReplace m k v = m ++ [(k, v)] := by
  induction m with
  | nil => simp [insertReplace]
  | cons hd tl ih =>
    obtain ⟨k', v'⟩ := hd
    have h1 : ¬ k' = k := fun he => h (by simp [he])
    have h2 : k ∉ tl.map Prod.fst := fun hm => h (by simp [hm])
    simp [insertReplace, h1, ih h2]

lemma appendTo_some_keys {m m' : LabelMap} {k x : String}
    (h : appendTo m k x = some m') : m'.map Prod.fst = m.map Prod.fst := by
  induction m generalizing m' with
  | nil => simp [appendTo] at h
  | cons hd tl ih =>
    obtain ⟨k', vs⟩ := hd
    by_cases hk : k' = k
    · subst hk
      simp [appendTo] at h
      simp [← h]
    · simp [appendTo, hk, Option.map_eq_some'] at h
      obtain ⟨r, hr, hm⟩ := h
      simp [← hm, ih hr]

lemma appendTo_isSome {m : LabelMap} {k : String} (x : String)
    (h : k ∈ m.map Prod.fst) : ∃ m', appendTo m k x = some m' := by
  induction m with
  | nil => simp at h
  | cons hd tl ih =>
    obtain ⟨k', vs⟩ := hd
    by_cases hk : k' = k
    · exact ⟨(k', vs ++ [x]) :: tl, by simp [appendTo, hk]⟩
    · rw [List.map_cons] at h
      rcases List.mem_cons.mp h with h | h
      · exact absurd h.symm hk
      · obtain ⟨m', hm⟩ := ih h
        exact ⟨(k', vs) :: m', by simp [appendTo, hk, hm]⟩

lemma allVals_appendTo {P : String → Prop} {m m' : LabelMap} {k x : String}
    (hm : ∀ kv ∈ m, ∀ v ∈ kv.2, P v) (hx : P x)
    (h : appendTo m k x = some m') : ∀ kv ∈ m', ∀ v ∈ kv.2, P v := by
  induction m generalizing m' with
  | nil => simp [appendTo] at h
  | cons hd tl ih =>
    obtain ⟨k', vs⟩ := hd
    by_cases hk : k' = k
    · simp [appendTo, hk] at h
      intro kv hkv v hv
      rw [← h] at hkv
      rcases List.mem_cons.mp hkv with rfl | hkv
      · rcases List.mem_append.mp hv with hv | hv
        · exact hm (k', vs) (by simp) v hv
        · simp at hv; subst hv; exact hx
      · exact hm kv (by simp [hkv]) v hv
    · simp [appendTo, hk, Option.map_eq_some'] at h
      obtain ⟨r, hr, hm'⟩ := h
      intro kv hkv v hv
      rw [← hm'] at hkv
      rcases List.mem_cons.mp hkv with rfl | hkv
      · exact hm (k', vs) (by simp) v hv
      · exact ih (fun kv h => hm kv (by simp [h])) hr kv hkv v hv

lemma allVals_insertReplace {P : String → Prop} {m : LabelMap} {k : String}
    (hm : ∀ kv ∈ m, ∀ v ∈ kv.2, P v) :
    ∀ kv ∈ insertReplace m k [], ∀ v ∈ kv.2, P v := by
  intro kv hkv v hv
  rcases mem_insertReplace hkv with h | h
  · subst h; simp at hv
  · exact hm kv h v hv

lemma appendTo_append_singleton {pre : LabelMap} {k : String}
    (acc : List String) (x : String) (h : k ∉ pre.map Prod.fst) :
    appendTo (pre ++ [(k, acc)]) k x = some (pre ++ [(k, acc ++ [x])]) := by
  induction pre with
  | nil => simp [appendTo]
  | cons hd tl ih =>
    obtain ⟨k', vs⟩ := hd
    have h1 : ¬ k' = k := fun he => h (by simp [he])
    have h2 : k ∉ tl.map Prod.fst := fun hm => h (by simp [hm])
    simp [appendTo, h1, ih h2]

/-! ### Lemmas about the scan -/

lemma ksmStep_nondelim {v : Char} (h : isDelim v = false)
    (s : List Char) (i : Nat) (p n : Option Char) (st : ScanState) :
    ksmStep s i v p n st = .ok st := by
  simp [isDelim] at h
  obtain ⟨⟨⟨h1, h2⟩, h3⟩, h4⟩ := h
  simp [ksmStep, h1, h2, h3, h4]

lemma ksmScanAux_cons (s : List Char) (v : Char) (rest : List Char) (i : Nat)
    (p : Option Char) (st : ScanState) :
    ksmScanAux s (v :: rest) i p st =
      match ksmStep s i v p rest.head? st with
      | .error e => .error e
      | .ok st' => ksmScanAux s rest (i + 1) (some v) st' := rfl

lemma ksmScanAux_run (s : List Char) (cs : List Char)
    (h : ∀ c ∈ cs, isDelim c = false) :
    ∀ (rest : List Char) (i : Nat) (p : Option Char) (st : ScanState),
    ksmScanAux s (cs ++ rest) i p st =
      ksmScanAux s rest (i + cs.length) (cs.foldl (fun _ c => some c) p) st := by
  induction cs with
  | nil => intro rest i p st; simp
  | cons c cs ih =>
    intro rest i p st
    have hc : isDelim c = false := h c (by simp)
    have hcs : ∀ x ∈ cs, isDelim x = false := fun x hx => h x (by simp [hx])
    rw [List.cons_append, ksmScanAux_cons, ksmStep_nondelim hc]
    show ksmScanAux s (cs ++ rest) (i + 1) (some c) st = _
    rw [ih hcs rest (i + 1) (some c) st]
    have harith : i + 1 + cs.length = i + (c :: cs).length := by
      simp [List.length_cons]; omega
    rw [harith]
    rfl

/-! ### Character classification lemmas -/

lemma isWordChar_not_delim {c : Char} (h : isWordChar c = true) :
    isDelim c = false := by
  cases hd : isDelim c
  · rfl
  · exfalso
    simp [isDelim] at hd
    rcases hd with ((rfl | rfl) | rfl) | rfl <;> exact absurd h (by decide)

lemma goodKeyStrict_spec {k : String} (h : goodKeyStrict k = true) :
    k.data ≠ [] ∧ ∀ c ∈ k.data, isDelim c = false := by
  rcases hd : k.data with _ | ⟨c, rest⟩
  · simp only [goodKeyStrict, hd] at h
    simp at h
  · simp only [goodKeyStrict, hd, Bool.and_eq_true] at h
    obtain ⟨⟨h1, _h2⟩, h3⟩ := h
    have hw : isWordChar c = true := by
      rcases Bool.or_eq_true_iff.mp h1 with h' | h' <;> simp [isWordChar, h']
    refine ⟨by simp, ?_⟩
    intro x hx
    rcases List.mem_cons.mp hx with rfl | hx
    · exact isWordChar_not_delim hw
    · exact isWordChar_not_delim (by simpa using List.all_eq_true.mp h3 x hx)

lemma pythonKeyMatch_spec {k : String} (h : pythonKeyMatch k = true) :
    k.data ≠ [] ∧ ∀ c ∈ k.data, isDelim c = false := by
  simp only [pythonKeyMatch, Bool.or_eq_true] at h
  rcases h with h | h
  · exact goodKeyStrict_spec h
  · rcases hl : k.data.getLast? with _ | c
    · rw [hl] at h; simp at h
    · rw [hl] at h
      simp only [Bool.and_eq_true, decide_eq_true_eq] at h
      obtain ⟨rfl, h2⟩ := h
      have hne : k.data ≠ [] := by
        intro he; rw [he] at hl; simp at hl
      obtain ⟨_hne', hall⟩ := goodKeyStrict_spec h2
      refine ⟨hne, ?_⟩
      intro x hx
      rw [← List.dropLast_append_getLast hne] at hx
      rcases List.mem_append.mp hx with hx | hx
      · exact hall x hx
      · simp at hx
        subst hx
        have hg : k.data.getLast hne = '\n' := by
          rw [List.getLast?_eq_getLast k.data hne] at hl
          exact Option.some.inj hl
        rw [hg]
        decide

/-! ### KeyError analysis -/

lemma ksmStep_eq_no_keyError {s : List Char} {i : Nat} {p n : Option Char}
    {st : ScanState} : ksmStep s i '=' p n st ≠ .error .keyError := by
  unfold ksmStep
  rw [if_pos rfl]
  split <;> simp

lemma ksmStep_lbracket_no_keyError {s : List Char} {i : Nat} {p n : Option Char}
    {st : ScanState} : ksmStep s i '[' p n st ≠ .error .keyError := by
  unfold ksmStep
  rw [if_neg (by decide), if_pos rfl]
  split <;> simp

lemma ksmStep_no_keyError_of_mem {s : List Char} {i : Nat} {v : Char}
    {p n : Option Char} {st : ScanState}
    (h : st.name ∈ st.map.map Prod.fst) :
    ksmStep s i v p n st ≠ .error .keyError := by
  obtain ⟨m', hm⟩ := appendTo_isSome (sliceStr s st.firstWordPos i) h
  unfold ksmStep
  split
  · split <;> simp
  · split
    · split <;> simp
    · split
      · split
        · simp
        · split
          · rw [hm]; simp
          · simp
      · split
        · split
          · simp
          · split
            · rw [hm]; simp
            · simp
        · simp

lemma ksmStep_ok_mem {s : List Char} {i : Nat} {v : Char} {p n : Option Char}
    {st st' : ScanState} (hstep : ksmStep s i v p n st = .ok st')
    (h : st.name ∈ st.map.map Prod.fst) :
    st'.name ∈ st'.map.map Prod.fst := by
  unfold ksmStep at hstep
  split at hstep
  · split at hstep
    · simp at hstep
    · simp only [Except.ok.injEq] at hstep
      subst hstep
      exact mem_keys_insertReplace _ _ _
  · split at hstep
    · split at hstep
      · simp at hstep
      · simp only [Except.ok.injEq] at hstep
        subst hstep
        exact h
    · split at hstep
      · split at hstep
        · simp at hstep
        · split at hstep
          · rcases ha : appendTo st.map st.name (sliceStr s st.firstWordPos i)
              with _ | m'
            · rw [ha] at hstep; simp at hstep
            · rw [ha] at hstep
              simp only [Except.ok.injEq] at hstep
              subst hstep
              simpa [appendTo_some_keys ha] using h
          · simp only [Except.ok.injEq] at hstep
            subst hstep
            exact h
      · split at hstep
        · split at hstep
          · simp at hstep
          · split at hstep
            · rcases ha : appendTo st.map st.name (sliceStr s st.firstWordPos i)
                with _ | m'
              · rw [ha] at hstep; simp at hstep
              · rw [ha] at hstep
                simp only [Except.ok.injEq] at hstep
                subst hstep
                simpa [appendTo_some_keys ha] using h
            · simp only [Except.ok.injEq] at hstep
              subst hstep
              exact h
        · simp only [Except.ok.injEq] at hstep
          subst hstep
          exact h

lemma ksmStep_eq_ok_mem {s : List Char} {i : Nat} {p n : Option Char}
    {st st' : ScanState} (hstep : ksmStep s i '=' p n st = .ok st') :
    st'.name ∈ st'.map.map Prod.fst := by
  unfold ksmStep at hstep
  rw [if_pos rfl] at hstep
  split at hstep
  · simp at hstep
  · simp only [Except.ok.injEq] at hstep
    subst hstep
    exact mem_keys_insertReplace _ _ _

lemma ksmScanAux_no_keyError (s : List Char) :
    ∀ (rest : List Char) (i : Nat) (p : Option Char) (st : ScanState),
    (st.name ∈ st.map.map Prod.fst ∨ eqBeforeDelims rest = true) →
    ksmScanAux s rest i p st ≠ .error .keyError := by
  intro rest
  induction rest with
  | nil =>
    intro i p st _h hcontra
    simp [ksmScanAux] at hcontra
  | cons v r ih =>
    intro i p st hinv
    rw [ksmScanAux_cons]
    rcases hstep : ksmStep s i v p r.head? st with e | st'
    · cases e with
      | invalidFormat => simp
      | keyError =>
        exfalso
        by_cases hv1 : v = '='
        · subst hv1; exact ksmStep_eq_no_keyError hstep
        · by_cases hv2 : v = '['
          · subst hv2; exact ksmStep_lbracket_no_keyError hstep
          · rcases hinv with hmem | hright
            · exact ksmStep_no_keyError_of_mem hmem hstep
            · by_cases hv3 : v = ']' ∨ v = ','
              · simp [eqBeforeDelims, hv1, hv3] at hright
              · have hnd : isDelim v = false := by
                  simp [isDelim, hv1, hv2]
                  rcases not_or.mp hv3 with ⟨h3, h4⟩
                  exact ⟨h3, h4⟩
                rw [ksmStep_nondelim hnd] at hstep
                simp at hstep
    · show ksmScanAux s r (i + 1) (some v) st' ≠ .error .keyError
      apply ih
      by_cases hv1 : v = '='
      · subst hv1; exact Or.inl (ksmStep_eq_ok_mem hstep)
      · rcases hinv with hmem | hright
        · exact Or.inl (ksmStep_ok_mem hstep hmem)
        · by_cases hv3 : v = ']' ∨ v = ','
          · simp [eqBeforeDelims, hv1, hv3] at hright
          · right
            simpa [eqBeforeDelims, hv1, hv3] using hright

/-! ### Structural invariants of the scan -/

lemma ksmStep_ok_inv {s : List Char} {i : Nat} {v : Char} {p n : Option Char}
    {st st' : ScanState} (hstep : ksmStep s i v p n st = .ok st')
    (hnodup : (st.map.map Prod.fst).Nodup)
    (hvals : ∀ kv ∈ st.map, ∀ w ∈ kv.2, ∀ c ∈ w.data, isDelim c = false)
    (hx : ∀ c ∈ (sliceStr s st.firstWordPos i).data, isDelim c = false) :
    (st'.map.map Prod.fst).Nodup ∧
    (∀ kv ∈ st'.map, ∀ w ∈ kv.2, ∀ c ∈ w.data, isDelim c = false) ∧
    (st'.firstWordPos = i + 1 ∨ (st' = st ∧ isDelim v = false)) := by
  unfold ksmStep at hstep
  split at hstep
  · split at hstep
    · simp at hstep
    · simp only [Except.ok.injEq] at hstep
      subst hstep
      exact ⟨nodup_keys_insertReplace hnodup, allVals_insertReplace hvals,
        Or.inl rfl⟩
  · split at hstep
    · split at hstep
      · simp at hstep
      · simp only [Except.ok.injEq] at hstep
        subst hstep
        exact ⟨hnodup, hvals, Or.inl rfl⟩
    · split at hstep
      · split at hstep
        · simp at hstep
        · split at hstep
          · rcases ha : appendTo st.map st.name (sliceStr s st.firstWordPos i)
              with _ | m'
            · rw [ha] at hstep; simp at hstep
            · rw [ha] at hstep
              simp only [Except.ok.injEq] at hstep
              subst hstep
              refine ⟨by simpa [appendTo_some_keys ha] using hnodup, ?_, Or.inl rfl⟩
              exact allVals_appendTo hvals hx ha
          · simp only [Except.ok.injEq] at hstep
            subst hstep
            exact ⟨hnodup, hvals, Or.inl rfl⟩
      · split at hstep
        · split at hstep
          · simp at hstep
          · split at hstep
            · rcases ha : appendTo st.map st.name (sliceStr s st.firstWordPos i)
                with _ | m'
              · rw [ha] at hstep; simp at hstep
              · rw [ha] at hstep
                simp only [Except.ok.injEq] at hstep
                subst hstep
                refine ⟨by simpa [appendTo_some_keys ha] using hnodup, ?_, Or.inl rfl⟩
                exact allVals_appendTo hvals hx ha
            · simp only [Except.ok.injEq] at hstep
              subst hstep
              exact ⟨hnodup, hvals, Or.inl rfl⟩
        · simp only [Except.ok.injEq] at hstep
          subst hstep
          rename_i hv1 hv2 hv3 hv4
          refine ⟨hnodup, hvals, Or.inr ⟨rfl, ?_⟩⟩
          simp [isDelim, hv1, hv2, hv3, hv4]

lemma ksmScanAux_inv (s : List Char) :
    ∀ (rest : List Char) (i : Nat) (p : Option Char) (st st' : ScanState),
    rest = s.drop i →
    (st.map.map Prod.fst).Nodup →
    (∀ kv ∈ st.map, ∀ w ∈ kv.2, ∀ c ∈ w.data, isDelim c = false) →
    (∃ run, (∀ c ∈ run, isDelim c = false) ∧
        s.drop st.firstWordPos = run ++ rest ∧ i = st.firstWordPos + run.length) →
    ksmScanAux s rest i p st = .ok st' →
    (st'.map.map Prod.fst).Nodup ∧
      (∀ kv ∈ st'.map, ∀ w ∈ kv.2, ∀ c ∈ w.data, isDelim c = false) := by
  intro rest
  induction rest with
  | nil =>
    intro i p st st' _hrest hnodup hvals _hpend hscan
    simp [ksmScanAux] at hscan
    rw [← hscan]
    exact ⟨hnodup, hvals⟩
  | cons v r ih =>
    intro i p st st' hrest hnodup hvals hpend hscan
    obtain ⟨run, hrunfree, hrun, hi⟩ := hpend
    have hslice : sliceStr s st.firstWordPos i = (⟨run⟩ : String) := by
      unfold sliceStr
      rw [hrun]
      have hlen : i - st.firstWordPos = run.length := by omega
      rw [hlen, List.take_left]
    rw [ksmScanAux_cons] at hscan
    rcases hstep : ksmStep s i v p r.head? st with e | st₁
    · rw [hstep] at hscan
      simp at hscan
    · rw [hstep] at hscan
      have hx : ∀ c ∈ (sliceStr s st.firstWordPos i).data, isDelim c = false := by
        rw [hslice]
        exact hrunfree
      obtain ⟨hnodup₁, hvals₁, hfwp⟩ := ksmStep_ok_inv hstep hnodup hvals hx
      have hr : r = s.drop (i + 1) := by
        calc r = (v :: r).drop 1 := rfl
        _ = (s.drop i).drop 1 := by rw [← hrest]
        _ = s.drop (i + 1) := List.drop_drop 1 i s
      refine ih (i + 1) (some v) st₁ st' hr hnodup₁ hvals₁ ?_ hscan
      rcases hfwp with hfwp | ⟨hst, hnd⟩
      · exact ⟨[], by simp, by rw [hfwp, ← hr]; simp, by rw [hfwp]; simp⟩
      · refine ⟨run ++ [v], ?_, ?_, ?_⟩
        · intro c hc
          rcases List.mem_append.mp hc with hc | hc
          · exact hrunfree c hc
          · simp at hc
            subst hc
            exact hnd
        · rw [hst]
          rw [hrun]
          simp
        · rw [hst]
          simp
          omega

lemma parse_ok_inv {s : String} {m : LabelMap} (h : parse s = .ok m) :
    (m.map Prod.fst).Nodup ∧
    (∀ kv ∈ m, ∀ w ∈ kv.2, ∀ c ∈ w.data, isDelim c = false) ∧
    (∀ kv ∈ m, pythonKeyMatch kv.1 = true) := by
  unfold parse parseL at h
  rcases hscan : ksmScan s.data with e | st
  · rw [hscan] at h
    simp at h
  · rw [hscan] at h
    split at h
    · rename_i heq
      simp at heq
    · rename_i st' heq
      simp only [Except.ok.injEq] at heq
      subst heq
      split at h
      · rename_i hall
        simp only [Except.ok.injEq] at h
        subst h
        have hinv := ksmScanAux_inv s.data s.data 0 none ⟨[], "", 0⟩ st
          (by simp) (by simp) (by simp)
          ⟨[], by simp, by simp, by simp⟩ hscan
        exact ⟨hinv.1, hinv.2,
          fun kv hkv => by simpa using List.all_eq_true.mp hall kv hkv⟩
      · simp at h

/-! ### Claim theorems -/

/-- C1, counterexample: on the input `"]"` the function raises Python's
`KeyError` (the `]` branch appends to `labelValueMap[name]` with
`name = ""`, which is not a key of the empty dict), not
`InvalidArgumentValueError`, so more than one error kind can escape. -/
theorem C1_counterexample : validate_ksm_parameter "]" = .error .keyError := by
  decide

/-- C1 (amended): for every input string in which each `']'` or `','` is
preceded by an earlier `'='`, `validate_ksm_parameter` either returns
normally or raises the single error kind `InvalidFormat`; a `KeyError` can
escape only when a `']'` or `','` triggers a value append before any `'='`
has been scanned. -/
theorem C1_keyError_needs_early_delim (s : String)
    (h : eqBeforeDelims s.data = true) :
    validate_ksm_parameter s ≠ .error .keyError := by
  have hp : parse s ≠ .error .keyError := by
    have hne := ksmScanAux_no_keyError s.data s.data 0 none ⟨[], "", 0⟩ (Or.inr h)
    intro hcontra
    unfold parse parseL at hcontra
    rcases hscan : ksmScan s.data with e | st
    · rw [hscan] at hcontra
      cases e with
      | invalidFormat => simp at hcontra
      | keyError => exact hne hscan
    · rw [hscan] at hcontra
      split at hcontra
      · rename_i heq
        simp at heq
      · split at hcontra <;> simp at hcontra
  unfold validate_ksm_parameter
  rcases hp' : parse s with e | m
  · cases e with
    | invalidFormat => simp
    | keyError => exact absurd hp' hp
  · simp

/-- C1, witness: the hypothesis of `C1_keyError_needs_early_delim` is
satisfiable and the conclusion holds at `"xy=[a]"`. -/
theorem C1_witness :
    eqBeforeDelims "xy=[a]".data = true ∧
      validate_ksm_parameter "xy=[a]" ≠ .error .keyError :=
  ⟨by decide, C1_keyError_needs_early_delim "xy=[a]" (by decide)⟩

/-- C2, counterexample: `parse "x=[a],x=[b]"` does not succeed — the key
`"x"` fails the ≥2-character identifier pattern, so the final key check
raises `InvalidFormat` instead of returning `{"x": ["b"]}`. -/
theorem C2_counterexample : parse "x=[a],x=[b]" = .error .invalidFormat := by
  decide

/-- C2 (amended): with a pattern-valid key the stated last-write-wins
behavior does hold: `parse "xy=[a],xy=[b]"` succeeds and returns
`{"xy": ["b"]}`, the later occurrence replacing (not merging) the earlier
values list. -/
theorem C2_duplicate_key_overwrites :
    parse "xy=[a],xy=[b]" = .ok [("xy", ["b"])] := by
  decide

/-- C4, counterexample: on the accepted input `"pods=[app]"` the function
hands `()`/`None` back to the caller, not the mapping — the mapping
`{"pods": ["app"]}` exists only as the internal accumulator computed by
the scan. -/
theorem C4_counterexample :
    validate_ksm_parameter "pods=[app]" = .ok () ∧
      parse "pods=[app]" = .ok [("pods", ["app"])] := by
  constructor
  · decide
  · decide

/-- C4 (amended): for every input, validation succeeds exactly when the
internal scan produces a mapping, and any produced mapping binds each
top-level key once (keys are unique, kept in encounter order); but the
function returns `None` on success, so the mapping is only an internal
accumulator, not the operation's result. -/
theorem C4_mapping_internal (s : String) :
    (validate_ksm_parameter s = .ok () ↔ ∃ m, parse s = .ok m) ∧
    (∀ m, parse s = .ok m → (m.map Prod.fst).Nodup) := by
  constructor
  · constructor
    · intro h
      unfold validate_ksm_parameter at h
      rcases hp : parse s with e | m
      · rw [hp] at h
        simp at h
      · exact ⟨m, rfl⟩
    · rintro ⟨m, hm⟩
      unfold validate_ksm_parameter
      rw [hm]
  · intro m hm
    exact (parse_ok_inv hm).1

/-- C4, witness: the equivalence and the key-uniqueness instantiated at
the accepted input `"ab=[cd]"`. -/
theorem C4_witness :
    validate_ksm_parameter "ab=[cd]" = .ok () ∧
      (([("ab", ["cd"])] : LabelMap).map Prod.fst).Nodup :=
  ⟨(C4_mapping_internal "ab=[cd]").1.mpr ⟨[("ab", ["cd"])], by decide⟩,
   (C4_mapping_internal "ab=[cd]").2 [("ab", ["cd"])] (by decide)⟩

/-- C5, counterexample: `parse "ab\n=[x]"` succeeds although the collected
key `"ab\n"` is not a leading letter/underscore followed by word
characters — Python's `$` also matches just before a trailing newline, so
`re.match(r'^[a-zA-Z_][A-Za-z0-9_]+$', "ab\n")` is truthy. -/
theorem C5_counterexample :
    parse "ab\n=[x]" = .ok [("ab\n", ["x"])] ∧
      goodKeyStrict "ab\n" = false := by
  constructor
  · decide
  · decide

/-- C5 (amended): whenever `validate_ksm_parameter` succeeds, every key of
the constructed mapping satisfies the Python truth value of
`re.match(r'^[a-zA-Z_][A-Za-z0-9_]+$', key)` — a full pattern match
possibly followed by one trailing newline; any violating key fails the
whole parse, and in particular `parse "a=[x]"` raises `InvalidFormat`. -/
theorem C5_keys_match_pattern (s : String) (m : LabelMap)
    (h : parse s = .ok m) :
    (∀ kv ∈ m, pythonKeyMatch kv.1 = true) ∧
      parse "a=[x]" = .error .invalidFormat :=
  ⟨(parse_ok_inv h).2.2, by decide⟩

/-- C5, witness: the key invariant instantiated at the accepted input
`"xy=[cd]"`. -/
theorem C5_witness :
    (∀ kv ∈ ([("xy", ["cd"])] : LabelMap), pythonKeyMatch kv.1 = true) ∧
      parse "a=[x]" = .error .invalidFormat :=
  C5_keys_match_pattern "xy=[cd]" [("xy", ["cd"])] (by decide)

/-- C6: the three spec examples — the empty string parses to the empty
mapping, `"pods=[]"` to a single key with an empty values list, and the
two-entry example to its stated mapping. -/
theorem C6_examples :
    parse "" = .ok [] ∧
    parse "pods=[]" = .ok [("pods", [])] ∧
    parse "namespaces=[k8s-label-1,k8s-label-n],pods=[app]" =
      .ok [("namespaces", ["k8s-label-1", "k8s-label-n"]),
           ("pods", ["app"])] := by
  refine ⟨by decide, by decide, by decide⟩

/-- C7, counterexample: `parse "xy=[a,,b]"` succeeds (producing
`{"xy": ["a", "", "b"]}`) even though it contains a doubled comma: for
`i ≥ 1` Python compares the `int` `previous` with the `str` `v`, which is
always `False`, so the doubled-comma guard never fires past index 0. -/
theorem C7_counterexample :
    parse "xy=[a,,b]" = .ok [("xy", ["a", "", "b"])] := by
  decide

/-- C7 (amended): a `','` step raises `InvalidFormat` exactly when the
comma is the first character of the input (`prev = none`) or the next
character is end-of-input or `']'`; the "previous is also a comma" part of
the claimed rule is not enforced beyond index 0.  The spec's two examples
are still rejected: `"x=[a,]"` by the trailing-comma rule and
`"x=[a,,b]"` only because the key `"x"` fails the identifier pattern. -/
theorem C7_comma_rule :
    (∀ (s : List Char) (i : Nat) (p n : Option Char) (st : ScanState),
      ksmStep s i ',' p n st = .error .invalidFormat ↔
        (p = none ∨ n = none ∨ n = some ']')) ∧
    parse "x=[a,]" = .error .invalidFormat ∧
    parse "x=[a,,b]" = .error .invalidFormat := by
  refine ⟨?_, by decide, by decide⟩
  intro s i p n st
  constructor
  · intro h
    unfold ksmStep at h
    rw [if_neg (by decide), if_neg (by decide), if_neg (by decide),
      if_pos rfl] at h
    by_cases hc : p = none ∨ n = none ∨ n = some ']'
    · exact hc
    · rw [if_neg hc] at h
      exfalso
      split at h
      · rcases ha : appendTo st.map st.name (sliceStr s st.firstWordPos i)
          with _ | m'
        · rw [ha] at h
          simp at h
        · rw [ha] at h
          simp at h
      · simp at h
  · intro hc
    unfold ksmStep
    rw [if_neg (by decide), if_neg (by decide), if_neg (by decide),
      if_pos rfl, if_pos hc]

/-- C7, witness: the comma rule applied at a concrete step — a comma at
index 0 (encoded `p = none`) raises `InvalidFormat`. -/
theorem C7_witness :
    ksmStep [','] 0 ',' none none ⟨[], "", 0⟩ = .error .invalidFormat :=
  (C7_comma_rule.1 [','] 0 none none ⟨[], "", 0⟩).mpr (Or.inl rfl)

/-- C8: all six spec rejection examples raise `InvalidFormat`: a leading
comma, a key with no bracket, a trailing comma inside brackets, a doubled
comma with a one-character key, an unmatched bracket with a one-character
key, and a single-character key. -/
theorem C8_rejections :
    validate_ksm_parameter ",x=[a]" = .error .invalidFormat ∧
    validate_ksm_parameter "x=a" = .error .invalidFormat ∧
    validate_ksm_parameter "x=[a,]" = .error .invalidFormat ∧
    validate_ksm_parameter "x=[a,,b]" = .error .invalidFormat ∧
    validate_ksm_parameter "x=[a" = .error .invalidFormat ∧
    validate_ksm_parameter "a=[x]" = .error .invalidFormat := by
  refine ⟨by decide, by decide, by decide, by decide, by decide, by decide⟩

/-- C9: `parse ",pods=[app]"` raises `InvalidFormat`; more generally any
input whose first character is `','` is rejected by the comma rule itself,
because at index 0 the scanner sets `prev` to the current character (so
`prev == v` holds and the guard fires), rather than using a sentinel. -/
theorem C9_leading_comma :
    parse ",pods=[app]" = .error .invalidFormat ∧
    (∀ s : String, s.data.head? = some ',' →
      parse s = .error .invalidFormat) := by
  refine ⟨by decide, ?_⟩
  intro s hs
  rcases hd : s.data with _ | ⟨c, r⟩
  · rw [hd] at hs
    simp at hs
  · rw [hd] at hs
    simp at hs
    subst hs
    show parseL s.data = _
    rw [hd]
    unfold parseL ksmScan
    rw [ksmScanAux_cons]
    have hstep : ksmStep (',' :: r) 0 ',' none r.head? ⟨[], "", 0⟩ =
        .error .invalidFormat := by
      unfold ksmStep
      rw [if_neg (by decide), if_neg (by decide), if_neg (by decide),
        if_pos rfl, if_pos (Or.inl rfl)]
    rw [hstep]

/-- C9, witness: the general leading-comma rejection applied at `",a"`. -/
theorem C9_witness : parse ",a" = .error .invalidFormat :=
  C9_leading_comma.2 ",a" (by decide)

/-- C10: no check ever demands that an opened `'['` be closed, and input
after the last structural delimiter is silently dropped: `"xy=[a"` is
accepted as `{"xy": []}` (the dangling `"a"` is lost) and `"ab=[cd],ef"`
is accepted as `{"ab": ["cd"]}` (the trailing `"ef"` is lost). -/
theorem C10_unclosed_bracket_accepted :
    parse "xy=[a" = .ok [("xy", [])] ∧
    parse "ab=[cd],ef" = .ok [("ab", ["cd"])] := by
  refine ⟨by decide, by decide⟩

/-- C3, counterexample: `"xy=[a,,b"` is accepted with mapping
`{"xy": ["a", ""]}` (the second comma appends the empty value, the
dangling `"b"` is dropped); its canonical serialization is `"xy=[a,]"`,
which re-parses to `InvalidFormat` (trailing comma), not to the same
mapping — so canonical round-trip fails for this accepted input. -/
theorem C3_counterexample :
    parse "xy=[a,,b" = .ok [("xy", ["a", ""])] ∧
    serialize [("xy", ["a", ""])] = "xy=[a,]" ∧
    parse (serialize [("xy", ["a", ""])]) = .error .invalidFormat := by
  refine ⟨by decide, by decide, by decide⟩

/-! ### Canonical-form reparse machinery -/

lemma mk_data (u : String) : (⟨u.data⟩ : String) = u := rfl

lemma drop_of_drop_append {s chunk rest : List Char} {i : Nat}
    (h : s.drop i = chunk ++ rest) : s.drop (i + chunk.length) = rest := by
  rw [← List.drop_drop, h, List.drop_left]

lemma sliceStr_append {s chunk rest : List Char} {i : Nat}
    (h : s.drop i = chunk ++ rest) :
    sliceStr s i (i + chunk.length) = ⟨chunk⟩ := by
  unfold sliceStr
  rw [h, Nat.add_sub_cancel_left, List.take_left]

lemma foldl_option_last (cs : List Char) (p : Option Char) (h : cs ≠ []) :
    ∃ c ∈ cs, cs.foldl (fun _ x => some x) p = some c := by
  induction cs generalizing p with
  | nil => exact absurd rfl h
  | cons c cs ih =>
    cases cs with
    | nil => exact ⟨c, by simp, by simp⟩
    | cons d ds =>
      obtain ⟨x, hx, he⟩ := ih (some c) (by simp)
      exact ⟨x, by simp [List.mem_cons.mp hx], by simpa using he⟩

lemma string_eq_empty_of_data {u : String} (h : u.data = []) : u = "" := by
  rw [← mk_data u, h]

lemma joinComma_cons_head {x : List Char} (xs : List (List Char))
    (hx : x ≠ []) : (joinComma (x :: xs)).head? = x.head? := by
  cases xs with
  | nil => rfl
  | cons y ys =>
    show (x ++ ',' :: joinComma (y :: ys)).head? = x.head?
    cases x with
    | nil => exact absurd rfl hx
    | cons c cs => rfl

lemma key_first_char {k : String} (h : pythonKeyMatch k = true) :
    ∃ c, k.data.head? = some c ∧ isDelim c = false := by
  obtain ⟨hne, hfree⟩ := pythonKeyMatch_spec h
  cases hd : k.data with
  | nil => exact absurd hd hne
  | cons c cs =>
    exact ⟨c, by simp, hfree c (by rw [hd]; simp)⟩

lemma ksmStep_rbracket_skip {s : List Char} {i : Nat} {p n : Option Char}
    {st : ScanState} (hn : n = none ∨ n = some ',') (hp : p = some '[') :
    ksmStep s i ']' p n st = .ok ⟨st.map, st.name, i + 1⟩ := by
  unfold ksmStep
  rw [if_neg (by decide), if_neg (by decide), if_pos rfl,
    if_neg (by rcases hn with rfl | rfl <;> simp), if_neg (by simp [hp])]

lemma ksmStep_rbracket_append {s : List Char} {i : Nat} {p n : Option Char}
    {st : ScanState} {m' : LabelMap}
    (hn : n = none ∨ n = some ',') (hp : p ≠ some '[')
    (ha : appendTo st.map st.name (sliceStr s st.firstWordPos i) = some m') :
    ksmStep s i ']' p n st = .ok ⟨m', st.name, i + 1⟩ := by
  unfold ksmStep
  rw [if_neg (by decide), if_neg (by decide), if_pos rfl,
    if_neg (by rcases hn with rfl | rfl <;> simp), if_pos hp, ha]

lemma ksmStep_comma_append {s : List Char} {i : Nat} {p n : Option Char}
    {st : ScanState} {m' : LabelMap}
    (hp1 : p ≠ none) (hn1 : n ≠ none) (hn2 : n ≠ some ']') (hp2 : p ≠ some ']')
    (ha : appendTo st.map st.name (sliceStr s st.firstWordPos i) = some m') :
    ksmStep s i ',' p n st = .ok ⟨m', st.name, i + 1⟩ := by
  unfold ksmStep
  rw [if_neg (by decide), if_neg (by decide), if_neg (by decide), if_pos rfl,
    if_neg (by simp [hp1, hn1, hn2]), if_pos hp2, ha]

lemma ksmStep_comma_skip {s : List Char} {i : Nat} {p n : Option Char}
    {st : ScanState}
    (hn1 : n ≠ none) (hn2 : n ≠ some ']') (hp2 : p = some ']') :
    ksmStep s i ',' p n st = .ok ⟨st.map, st.name, i + 1⟩ := by
  unfold ksmStep
  rw [if_neg (by decide), if_neg (by decide), if_neg (by decide), if_pos rfl,
    if_neg (by simp [hp2, hn1, hn2]), if_neg (by simp [hp2])]

lemma ksmStep_eq_insert {s : List Char} {i : Nat} {p n : Option Char}
    {st : ScanState} (hp : p ≠ some ',') (hn : n = some '[') :
    ksmStep s i '=' p n st =
      .ok ⟨insertReplace st.map (sliceStr s st.firstWordPos i) [],
           sliceStr s st.firstWordPos i, i + 1⟩ := by
  unfold ksmStep
  rw [if_pos rfl, if_neg (by simp [hp, hn])]

lemma ksmStep_lbracket_ok {s : List Char} {i : Nat} {p n : Option Char}
    {st : ScanState} (hp : p = some '=') :
    ksmStep s i '[' p n st = .ok ⟨st.map, st.name, i + 1⟩ := by
  unfold ksmStep
  rw [if_neg (by decide), if_pos rfl, if_neg (by simp [hp])]

lemma not_lbracket_of_free {c : Char} (h : isDelim c = false) : c ≠ '[' := by
  intro he
  subst he
  simp [isDelim] at h

lemma not_rbracket_of_free {c : Char} (h : isDelim c = false) : c ≠ ']' := by
  intro he
  subst he
  simp [isDelim] at h

lemma not_comma_of_free {c : Char} (h : isDelim c = false) : c ≠ ',' := by
  intro he
  subst he
  simp [isDelim] at h

lemma head?_append_of_head? {l l' : List Char} {a : Char}
    (h : l.head? = some a) : (l ++ l').head? = some a := by
  cases l with
  | nil => simp at h
  | cons b bs => simpa using h

lemma ksmScanAux_vals (s : List Char) :
    ∀ (vs : List String) (after : List Char) (i : Nat) (p : Option Char)
      (pre : LabelMap) (acc : List String) (k : String),
    s.drop i = joinComma (vs.map String.data) ++ ']' :: after →
    (∀ v ∈ vs, ∀ c ∈ v.data, isDelim c = false) →
    vs.getLast? ≠ some "" →
    k ∉ pre.map Prod.fst →
    (p = some '[' ∨ (p = some ',' ∧ vs ≠ [])) →
    (after.head? = none ∨ after.head? = some ',') →
    ksmScanAux s (joinComma (vs.map String.data) ++ ']' :: after) i p
        ⟨pre ++ [(k, acc)], k, i⟩ =
      ksmScanAux s after (i + (joinComma (vs.map String.data)).length + 1)
        (some ']')
        ⟨pre ++ [(k, acc ++ vs)], k,
         i + (joinComma (vs.map String.data)).length + 1⟩ := by
  intro vs
  induction vs with
  | nil =>
    intro after i p pre acc k _hdrop _hvals _hlast _hkpre hp hafter
    rcases hp with hp | ⟨_, hne⟩
    · show ksmScanAux s (']' :: after) i p ⟨pre ++ [(k, acc)], k, i⟩ = _
      rw [ksmScanAux_cons, ksmStep_rbracket_skip hafter hp]
      show ksmScanAux s after (i + 1) (some ']')
          ⟨pre ++ [(k, acc)], k, i + 1⟩ = _
      simp [joinComma]
    · exact absurd rfl hne
  | cons v tl ih =>
    intro after i p pre acc k hdrop hvals hlast hkpre _hp hafter
    have hvfree : ∀ c ∈ v.data, isDelim c = false := hvals v (by simp)
    cases tl with
    | nil =>
      have hvne : v ≠ "" := by
        intro he
        rw [he] at hlast
        exact hlast rfl
      have hdne : v.data ≠ [] := fun he => hvne (string_eq_empty_of_data he)
      have hdrop' : s.drop i = v.data ++ (']' :: after) := hdrop
      have hslice : sliceStr s i (i + v.data.length) = v := by
        rw [sliceStr_append hdrop', mk_data]
      show ksmScanAux s (v.data ++ ']' :: after) i p
          ⟨pre ++ [(k, acc)], k, i⟩ = _
      rw [ksmScanAux_run s v.data hvfree (']' :: after) i p _]
      obtain ⟨c, hcmem, hcfold⟩ := foldl_option_last v.data p hdne
      rw [hcfold, ksmScanAux_cons,
        ksmStep_rbracket_append hafter
          (by
            intro he
            exact not_lbracket_of_free (hvfree c hcmem) (Option.some.inj he))
          (by
            show appendTo (pre ++ [(k, acc)]) k
                (sliceStr s i (i + v.data.length)) = _
            rw [hslice]
            exact appendTo_append_singleton acc v hkpre)]
      show ksmScanAux s after (i + v.data.length + 1) (some ']')
          ⟨pre ++ [(k, acc ++ [v])], k, i + v.data.length + 1⟩ = _
      rfl
    | cons v' tl' =>
      have hreshape : joinComma ((v :: v' :: tl').map String.data) ++ ']' :: after =
          v.data ++ (',' ::
            (joinComma ((v' :: tl').map String.data) ++ ']' :: after)) := by
        show (v.data ++ ',' :: joinComma ((v' :: tl').map String.data)) ++
            ']' :: after = _
        simp [List.append_assoc]
      rw [hreshape] at hdrop ⊢
      have hslice : sliceStr s i (i + v.data.length) = v := by
        rw [sliceStr_append hdrop, mk_data]
      rw [ksmScanAux_run s v.data hvfree _ i p _]
      have hpfold : ∃ c, v.data.foldl (fun _ x => some x) p = some c ∧
          (isDelim c = false ∨ c = '[' ∨ c = ',') := by
        rcases _hp with hp' | ⟨hp', _⟩
        · cases hd : v.data with
          | nil => exact ⟨'[', by simp [hp'], Or.inr (Or.inl rfl)⟩
          | cons a as =>
            obtain ⟨c, hcmem, hcfold⟩ := foldl_option_last (a :: as) p (by simp)
            exact ⟨c, hcfold, Or.inl (hvfree c (by rw [hd]; exact hcmem))⟩
        · cases hd : v.data with
          | nil => exact ⟨',', by simp [hp'], Or.inr (Or.inr rfl)⟩
          | cons a as =>
            obtain ⟨c, hcmem, hcfold⟩ := foldl_option_last (a :: as) p (by simp)
            exact ⟨c, hcfold, Or.inl (hvfree c (by rw [hd]; exact hcmem))⟩
      obtain ⟨c, hcfold, hcprop⟩ := hpfold
      rw [hcfold, ksmScanAux_cons]
      have hnexthead : ∃ c', (joinComma ((v' :: tl').map String.data) ++
          ']' :: after).head? = some c' ∧ c' ≠ ']' := by
        cases hd' : v'.data with
        | nil =>
          cases tl' with
          | nil =>
            exfalso
            have : v' = "" := string_eq_empty_of_data hd'
            rw [this] at hlast
            exact hlast rfl
          | cons w tw =>
            refine ⟨',', ?_, by decide⟩
            show ((v'.data ++ ',' ::
                joinComma ((w :: tw).map String.data)) ++ ']' :: after).head? = _
            rw [hd']
            rfl
        | cons a as =>
          refine ⟨a, ?_, not_rbracket_of_free
            (hvals v' (by simp) a (by rw [hd']; simp))⟩
          have hhead : (joinComma ((v' :: tl').map String.data)).head? =
              some a := by
            have hmap : (v' :: tl').map String.data =
                v'.data :: tl'.map String.data := rfl
            rw [hmap, joinComma_cons_head _ (by rw [hd']; simp), hd']
            rfl
          exact head?_append_of_head? hhead
      obtain ⟨c', hc'head, hc'ne⟩ := hnexthead
      have hstep : ksmStep s (i + v.data.length) ','
          (some c)
          ((joinComma ((v' :: tl').map String.data) ++ ']' :: after).head?)
          ⟨pre ++ [(k, acc)], k, i⟩ =
          .ok ⟨pre ++ [(k, acc ++ [v])], k, i + v.data.length + 1⟩ := by
        rw [hc'head]
        refine ksmStep_comma_append (by simp) (by simp) (by simp [hc'ne]) ?_ ?_
        · intro he
          rcases hcprop with hfree | rfl | rfl
          · exact not_rbracket_of_free hfree (Option.some.inj he)
          · exact absurd (Option.some.inj he) (by decide)
          · exact absurd (Option.some.inj he) (by decide)
        · show appendTo (pre ++ [(k, acc)]) k
              (sliceStr s i (i + v.data.length)) = _
          rw [hslice]
          exact appendTo_append_singleton acc v hkpre
      rw [hstep]
      show ksmScanAux s
          (joinComma ((v' :: tl').map String.data) ++ ']' :: after)
          (i + v.data.length + 1) (some ',')
          ⟨(pre ++ [(k, acc ++ [v])]), k, i + v.data.length + 1⟩ = _
      have hdrop₂ : s.drop (i + v.data.length + 1) =
          joinComma ((v' :: tl').map String.data) ++ ']' :: after := by
        have h1 := drop_of_drop_append hdrop
        have h1' : s.drop (i + v.data.length) =
            [','] ++ (joinComma ((v' :: tl').map String.data) ++
              ']' :: after) := by
          simpa using h1
        have h2 := drop_of_drop_append h1'
        simpa using h2
      rw [ih after (i + v.data.length + 1) (some ',') pre (acc ++ [v]) k
        hdrop₂ (fun w hw => hvals w (by simp [hw]))
        (by
          intro hc
          exact hlast (by simpa using hc))
        hkpre (Or.inr ⟨rfl, by simp⟩) hafter]
      have harith : i + v.data.length + 1 +
          (joinComma ((v' :: tl').map String.data)).length + 1 =
          i + (v.data ++ ',' ::
            joinComma ((v' :: tl').map String.data)).length + 1 := by
        simp
        omega
      rw [harith]
      simp [joinComma]

lemma ksmScanAux_entry (s : List Char) (k : String) (vs : List String)
    (after : List Char) (i : Nat) (p : Option Char) (pre : LabelMap)
    (name0 : String)
    (hdrop : s.drop i = entryChars (k, vs) ++ after)
    (hkey : pythonKeyMatch k = true)
    (hvals : ∀ v ∈ vs, ∀ c ∈ v.data, isDelim c = false)
    (hlast : vs.getLast? ≠ some "")
    (hkpre : k ∉ pre.map Prod.fst)
    (hafter : after.head? = none ∨ after.head? = some ',') :
    ksmScanAux s (entryChars (k, vs) ++ after) i p ⟨pre, name0, i⟩ =
      ksmScanAux s after (i + (entryChars (k, vs)).length) (some ']')
        ⟨pre ++ [(k, vs)], k, i + (entryChars (k, vs)).length⟩ := by
  obtain ⟨hkne, hkfree⟩ := pythonKeyMatch_spec hkey
  have hreshape : entryChars (k, vs) ++ after =
      k.data ++ ('=' :: '[' ::
        (joinComma (vs.map String.data) ++ ']' :: after)) := by
    show (k.data ++ '=' :: '[' ::
        (joinComma (vs.map String.data) ++ [']'])) ++ after = _
    simp [List.append_assoc]
  rw [hreshape] at hdrop
  rw [hreshape]
  rw [ksmScanAux_run s k.data hkfree _ i p _]
  obtain ⟨ck, hckmem, hckfold⟩ := foldl_option_last k.data p hkne
  rw [hckfold, ksmScanAux_cons]
  have hslicek : sliceStr s i (i + k.data.length) = k := by
    rw [sliceStr_append hdrop, mk_data]
  rw [List.head?_cons]
  rw [ksmStep_eq_insert
      (by
        intro he
        exact not_comma_of_free (hkfree ck hckmem) (Option.some.inj he))
      rfl]
  show ksmScanAux s ('[' :: (joinComma (vs.map String.data) ++ ']' :: after))
      (i + k.data.length + 1) (some '=')
      ⟨insertReplace pre (sliceStr s i (i + k.data.length)) [],
       sliceStr s i (i + k.data.length), i + k.data.length + 1⟩ = _
  rw [hslicek, insertReplace_not_mem hkpre]
  rw [ksmScanAux_cons, ksmStep_lbracket_ok rfl]
  show ksmScanAux s (joinComma (vs.map String.data) ++ ']' :: after)
      (i + k.data.length + 1 + 1) (some '[')
      ⟨pre ++ [(k, [])], k, i + k.data.length + 1 + 1⟩ = _
  have hdrop₂ : s.drop (i + k.data.length + 1 + 1) =
      joinComma (vs.map String.data) ++ ']' :: after := by
    have h1 := drop_of_drop_append hdrop
    have h2 : s.drop (i + k.data.length) =
        ['=', '['] ++ (joinComma (vs.map String.data) ++ ']' :: after) := by
      simpa using h1
    have h3 := drop_of_drop_append h2
    simpa [Nat.add_assoc] using h3
  rw [ksmScanAux_vals s vs after (i + k.data.length + 1 + 1) (some '[')
    pre [] k hdrop₂ hvals hlast hkpre (Or.inl rfl) hafter]
  have harith : i + k.data.length + 1 + 1 +
      (joinComma (vs.map String.data)).length + 1 =
      i + (entryChars (k, vs)).length := by
    simp [entryChars]
    omega
  rw [harith]
  simp

lemma ksmScanAux_entries (s : List Char) :
    ∀ (ml : List (String × List String)) (i : Nat) (p : Option Char)
      (pre : LabelMap) (name0 : String),
    s.drop i = joinComma (ml.map entryChars) →
    (∀ kv ∈ ml, pythonKeyMatch kv.1 = true) →
    (∀ kv ∈ ml, ∀ v ∈ kv.2, ∀ c ∈ v.data, isDelim c = false) →
    (∀ kv ∈ ml, kv.2.getLast? ≠ some "") →
    (∀ kv ∈ ml, kv.1 ∉ pre.map Prod.fst) →
    (ml.map Prod.fst).Nodup →
    ∃ nm fw, ksmScanAux s (joinComma (ml.map entryChars)) i p
        ⟨pre, name0, i⟩ = .ok ⟨pre ++ ml, nm, fw⟩ := by
  intro ml
  induction ml with
  | nil =>
    intro i p pre name0 _ _ _ _ _ _
    exact ⟨name0, i, by simp [joinComma, ksmScanAux]⟩
  | cons kv ml' ih =>
    intro i p pre name0 hdrop hkeys hvals hlast hfresh hnodup
    obtain ⟨k, vs⟩ := kv
    cases ml' with
    | nil =>
      have hdrop' : s.drop i = entryChars (k, vs) ++ [] := by simpa using hdrop
      have hentry := ksmScanAux_entry s k vs [] i p pre name0 hdrop'
        (hkeys (k, vs) (by simp)) (fun v hv => hvals (k, vs) (by simp) v hv)
        (hlast (k, vs) (by simp)) (hfresh (k, vs) (by simp)) (Or.inl rfl)
      rw [List.append_nil] at hentry
      refine ⟨k, i + (entryChars (k, vs)).length, ?_⟩
      show ksmScanAux s (entryChars (k, vs)) i p ⟨pre, name0, i⟩ = _
      rw [hentry]
      rfl
    | cons kv' ml'' =>
      have hreshape : joinComma (((k, vs) :: kv' :: ml'').map entryChars) =
          entryChars (k, vs) ++
            (',' :: joinComma ((kv' :: ml'').map entryChars)) := rfl
      rw [hreshape] at hdrop
      have hentry := ksmScanAux_entry s k vs
        (',' :: joinComma ((kv' :: ml'').map entryChars)) i p pre name0 hdrop
        (hkeys (k, vs) (by simp)) (fun v hv => hvals (k, vs) (by simp) v hv)
        (hlast (k, vs) (by simp)) (hfresh (k, vs) (by simp)) (Or.inr rfl)
      have hdrop₂ : s.drop (i + (entryChars (k, vs)).length) =
          ',' :: joinComma ((kv' :: ml'').map entryChars) :=
        drop_of_drop_append hdrop
      obtain ⟨c0, hc0, hc0free⟩ := key_first_char (hkeys kv' (by simp))
      have hx : (entryChars kv').head? = some c0 := by
        show (kv'.1.data ++ _).head? = _
        exact head?_append_of_head? hc0
      have hne : entryChars kv' ≠ [] := by
        intro he
        rw [he] at hx
        simp at hx
      have hjh : (joinComma ((kv' :: ml'').map entryChars)).head? = some c0 := by
        have hmap : (kv' :: ml'').map entryChars =
            entryChars kv' :: ml''.map entryChars := rfl
        rw [hmap, joinComma_cons_head _ hne, hx]
      have hstep : ksmStep s (i + (entryChars (k, vs)).length) ','
          (some ']') (joinComma ((kv' :: ml'').map entryChars)).head?
          ⟨pre ++ [(k, vs)], k, i + (entryChars (k, vs)).length⟩ =
          .ok ⟨pre ++ [(k, vs)], k, i + (entryChars (k, vs)).length + 1⟩ :=
        ksmStep_comma_skip (by rw [hjh]; simp)
          (by
            rw [hjh]
            intro he
            exact not_rbracket_of_free hc0free (Option.some.inj he))
          rfl
      have hdrop₃ : s.drop (i + (entryChars (k, vs)).length + 1) =
          joinComma ((kv' :: ml'').map entryChars) := by
        have h2 : s.drop (i + (entryChars (k, vs)).length) =
            [','] ++ joinComma ((kv' :: ml'').map entryChars) := by
          simpa using hdrop₂
        simpa using drop_of_drop_append h2
      have hnodup' : ((kv' :: ml'').map Prod.fst).Nodup := by
        have := hnodup
        simp only [List.map_cons] at this
        exact this.of_cons
      have hknotin : ∀ kv₁ ∈ kv' :: ml'', kv₁.1 ≠ k := by
        intro kv₁ hkv₁ he
        have := hnodup
        simp only [List.map_cons, List.nodup_cons] at this
        exact this.1 (by
          rw [← he]
          exact List.mem_map.mpr ⟨kv₁, hkv₁, rfl⟩)
      obtain ⟨nm, fw, hih⟩ := ih (i + (entryChars (k, vs)).length + 1)
        (some ',') (pre ++ [(k, vs)]) k hdrop₃
        (fun kv₁ h => hkeys kv₁ (by simp [h]))
        (fun kv₁ h => hvals kv₁ (by simp [h]))
        (fun kv₁ h => hlast kv₁ (by simp [h]))
        (by
          intro kv₁ hkv₁
          simp only [List.map_append]
          intro hmem
          rcases List.mem_append.mp hmem with hmem | hmem
          · exact hfresh kv₁ (by simp [hkv₁]) hmem
          · simp at hmem
            exact hknotin kv₁ hkv₁ hmem)
        hnodup'
      refine ⟨nm, fw, ?_⟩
      rw [hreshape, hentry, ksmScanAux_cons, hstep]
      show ksmScanAux s (joinComma ((kv' :: ml'').map entryChars))
          (i + (entryChars (k, vs)).length + 1) (some ',')
          ⟨pre ++ [(k, vs)], k, i + (entryChars (k, vs)).length + 1⟩ = _
      rw [hih]
      simp

/-- C3 (amended): for every string `s` accepted by the parser whose
resulting mapping has no value list ending in the empty string,
serializing the mapping in canonical form
`key1=[v1,v2],key2=[v3],...` and parsing that serialization again yields
the same mapping.  (The guard is necessary: the accepted input
`"xy=[a,,b"` yields `{"xy": ["a", ""]}`, whose canonical form
`"xy=[a,]"` is rejected as a trailing comma.) -/
theorem C3_roundtrip (s : String) (m : LabelMap)
    (h : parse s = .ok m)
    (hlast : ∀ kv ∈ m, kv.2.getLast? ≠ some "") :
    parse (serialize m) = .ok m := by
  obtain ⟨hnodup, hvals, hkeys⟩ := parse_ok_inv h
  obtain ⟨nm, fw, hscan⟩ := ksmScanAux_entries (joinComma (m.map entryChars))
    m 0 none [] "" (by simp) hkeys hvals hlast (by simp) hnodup
  show parseL (serializeL m) = .ok m
  have hser : serializeL m = joinComma (m.map entryChars) := rfl
  rw [hser]
  unfold parseL ksmScan
  rw [hscan]
  have hall : (([] ++ m : LabelMap).all (fun kv => pythonKeyMatch kv.1)) =
      true := by
    simp only [List.nil_append]
    exact List.all_eq_true.mpr (fun kv hkv => by simpa using hkeys kv hkv)
  simp [hall]
  intro x xs hx
  exact hkeys (x, xs) hx

/-- C3, witness: the round-trip theorem applied at the accepted input
`"xy=[ab,cd]"` (whose mapping ends in the nonempty value `"cd"`). -/
theorem C3_witness :
    parse (serialize [("xy", ["ab", "cd"])]) = .ok [("xy", ["ab", "cd"])] :=
  C3_roundtrip "xy=[ab,cd]" [("xy", ["ab", "cd"])] (by decide) (by decide)
